import Mathlib

/-!
Verification of the span-decoding and schema-orchestration core of
`inference.py` (UIE-style information extraction).

Texts are modelled as `List Char` (one element per Python character), Python
list slicing `s[a:b]` (which clamps out-of-range indices) as `pySlice`, Python
`dict` as an insertion-ordered association list with `dictGet`/`dictSet`, and
Python exceptions as `Except UIEError`.

The external model/tokenizer collaborator (`convert_inputs` plus the forward
pass) is an opaque `Oracle` supplying, per `(contents, prompts, max_length)`
triple, the two probability tables and the offset mapping.  The helpers
`get_bool_ids_greater_than` and `get_span` are imported by `inference.py` from
the module `modelv21_2`, whose source is not available here; they are modelled
from the specification (§4.1, §4.2) and marked as such.
-/

namespace UIE

/-- A Python string, one list element per character. -/
abbrev Chars := List Char

/-- Python exceptions that the modelled code can raise.  `shapeError` is the
spec's `ShapeError` (malformed probability table, §4.1/§7); `indexError` and
`keyError` model Python's built-in `IndexError`/`KeyError`. -/
inductive UIEError where
  | shapeError
  | indexError
  | keyError
deriving DecidableEq, Repr

instance {ε α : Type} [DecidableEq ε] [DecidableEq α] :
    DecidableEq (Except ε α) := fun x y =>
  match x, y with
  | .ok a, .ok b => if h : a = b then .isTrue (by rw [h]) else .isFalse (by simp [h])
  | .error a, .error b => if h : a = b then .isTrue (by rw [h]) else .isFalse (by simp [h])
  | .ok _, .error _ => .isFalse (by simp)
  | .error _, .ok _ => .isFalse (by simp)

/-- Python list/string slicing `s[a:b]` for non-negative bounds: indices are
clamped to the length, never raising; `a ≥ len` or `b ≤ a` yields `[]`. -/
def pySlice (s : Chars) (a b : Nat) : Chars :=
  (s.drop a).take (b - a)

/-- A probability table is rectangular when every row has the length of the
first row. -/
def rectangular (probs : List (List ℚ)) : Bool :=
  match probs with
  | [] => true
  | r :: rs => rs.all (fun row => row.length == r.length)

/-- Positions of one row whose probability is strictly greater than the
threshold, in ascending order. -/
def boolIdsRow (row : List ℚ) (limit : ℚ) : List Nat :=
  (row.enum.filter (fun p => decide (limit < p.2))).map Prod.fst

/-- Modelled from the spec: `get_bool_ids_greater_than` is imported by
`inference.py` from the module `modelv21_2`, which is not among the sources at
hand.  Per §4.1, the Threshold Binarizer returns, for each row of the
probability table, the ascending list of positions whose probability is
strictly greater than the threshold, and signals a `ShapeError` on malformed
(non-rectangular) input. -/
def get_bool_ids_greater_than (probs : List (List ℚ)) (limit : ℚ) :
    Except UIEError (List (List Nat)) :=
  if rectangular probs then
    .ok (probs.map (fun row => boolIdsRow row limit))
  else
    .error .shapeError

/-- Modelled from the spec: `get_span` is imported by `inference.py` from the
module `modelv21_2`, which is not among the sources at hand.  Per §4.2, the
Span Assembler pairs the ascending start positions with the ascending end
positions by greedy two-pointer matching: `s = e` emits `(s, e)` and advances
both cursors; `s < e` emits `(s, e)` and advances the start cursor only;
`s > e` drops the end and advances the end cursor only.  The `s > e` rule is
realised here by first dropping every end below the current start, which keeps
the recursion structural; the literal single-step cursor equations of §4.2
hold of this definition and are proved below. -/
def get_span : List Nat → List Nat → List (Nat × Nat)
  | [], _ => []
  | s :: ss, es =>
    match es.dropWhile (fun e => decide (e < s)) with
    | [] => []
    | e :: es2 =>
      if s = e then (s, e) :: get_span ss es2
      else (s, e) :: get_span ss (e :: es2)

/-- The spans that survive the prompt-region filter of `inference.py`
(line 62): a span is dropped exactly when `span[0] < len(prompt) + 2`. -/
def keptSpans (prompt : Chars) (spans : List (Nat × Nat)) : List (Nat × Nat) :=
  spans.filter (fun sp => decide (¬ sp.1 < prompt.length + 2))

/-- The decoding loop of `inference.py` lines 64–67: for each token index `s`
in the given list, look up `offset_map[s]` (raising `IndexError` when `s` is
past the end of the offset map, as Python indexing does) and append the
character slice `input_content[offset_map[s][0] : offset_map[s][1]]`. -/
def spanText (input_content : Chars) (offset_map : List (Nat × Nat)) :
    List Nat → Except UIEError Chars
  | [] => pure []
  | s :: rest =>
    match offset_map.get? s with
    | none => .error .indexError
    | some off => do
      let tail ← spanText input_content offset_map rest
      pure (pySlice input_content off.1 off.2 ++ tail)

/-- Decoding of one batch row, `inference.py` lines 59–68: assemble the span
set, drop spans anchored in the prompt region, and decode each survivor over
`prompt ++ content` via its offset map; token range `range(span[0],
span[1] + 1)` is `List.range' span.1 (span.2 + 1 - span.1)`. -/
def decodeRow (start_ids end_ids : List Nat) (prompt content : Chars)
    (offset_map : List (Nat × Nat)) : Except UIEError (List Chars) :=
  let span_set := get_span start_ids end_ids
  (keptSpans prompt span_set).mapM (fun sp =>
    spanText (prompt ++ content) offset_map (List.range' sp.1 (sp.2 + 1 - sp.1)))

/-- The per-row loop of `inference.py` lines 54–69: Python's five-way `zip`
truncates to the shortest input, and an exception raised while decoding one
row aborts the whole call, discarding rows already decoded. -/
def inferenceLoop : List (List Nat) → List (List Nat) → List Chars →
    List Chars → List (List (Nat × Nat)) → Except UIEError (List (List Chars))
  | sids :: sl, eids :: el, p :: pl, c :: cl, om :: oml => do
    let row ← decodeRow sids eids p c om
    let rest ← inferenceLoop sl el pl cl oml
    pure (row :: rest)
  | _, _, _, _, _ => pure []

/-- Output of the external tokenizer/model collaborator for one batch: the
start- and end-probability tables and the per-pair offset mapping. -/
structure ModelOutput where
  output_sp : List (List ℚ)
  output_ep : List (List ℚ)
  offset_mapping : List (List (Nat × Nat))
deriving DecidableEq, Repr

/-- The opaque model/tokenizer boundary (`convert_inputs` plus the forward
pass of `model`): a function of the batch contents, prompts and maximum token
length. -/
abbrev Oracle := List Chars → List Chars → Nat → ModelOutput

/-- Embedding of `inference` (`inference.py` lines 12–70): run the
collaborator, binarize both probability tables against the threshold,
assemble, filter and decode spans row by row.  No validation of
`prob_threshold` or `max_length` is performed by the source. -/
def inference (oracle : Oracle) (contents prompts : List Chars)
    (max_length : Nat) (prob_threshold : ℚ) :
    Except UIEError (List (List Chars)) := do
  let inputs := oracle contents prompts max_length
  let start_ids_list ← get_bool_ids_greater_than inputs.output_sp prob_threshold
  let end_ids_list ← get_bool_ids_greater_than inputs.output_ep prob_threshold
  inferenceLoop start_ids_list end_ids_list prompts contents inputs.offset_mapping

/-- Python `dict` lookup `d[k]` on an insertion-ordered association list:
the first (and, for a genuine dict, only) binding of `k`, if any. -/
def dictGet {κ α : Type} [DecidableEq κ] : List (κ × α) → κ → Option α
  | [], _ => none
  | kv :: rest, k => if kv.1 = k then some kv.2 else dictGet rest k

/-- Python `dict` assignment `d[k] = v`: an existing binding is updated in
place (keeping its position and original key object), a new key is appended. -/
def dictSet {κ α : Type} [DecidableEq κ] : List (κ × α) → κ → α → List (κ × α)
  | [], k, v => [(k, v)]
  | kv :: rest, k, v =>
    if kv.1 = k then (kv.1, v) :: rest else kv :: dictSet rest k v

/-- One call issued to `inference` by an orchestrator, as observable at the
`inference` boundary: the batch contents, prompts, maximum token length and
probability threshold it was invoked with. -/
structure InferCall where
  contents : List Chars
  prompts : List Chars
  max_length : Nat
  prob_threshold : ℚ
deriving DecidableEq, Repr

/-- Nested result dictionary of the two-level orchestrators. -/
abbrev NestedDict := List (Chars × List (Chars × List Chars))

/-- Embedding of `ner_example` (`inference.py` lines 196–231): duplicate the
sentence once per schema entry, run one `inference` call with
`max_length=128`, and zip the results back onto the schema names.  The source
function ends with `print('[+] NER Results: ', rsp)` and has no `return`
statement, so its Python return value is `None`; the embedding returns the
printed dictionary, the function's actual return value (`none`), and the
trace of `inference` calls issued. -/
def ner_example (oracle : Oracle) (sentence : Chars) (schema : List Chars)
    (prob_threshold : ℚ) :
    Except UIEError (List (Chars × List Chars) × Option (List (Chars × List Chars)) × List InferCall) := do
  let sentences := List.replicate schema.length sentence
  let res ← inference oracle sentences schema 128 prob_threshold
  let rsp := (schema.zip res).foldl (fun d sr => dictSet d sr.1 sr.2) []
  pure (rsp, none, [⟨sentences, schema, 128, prob_threshold⟩])

/-- Inner loop of `event_extract_example` (`inference.py` lines 118–132): for
each non-empty trigger, issue one dependent batch (`"{trigger}的{a}"` per
argument, all over the sentence, with `max_length=max_seq_len`) and write the
argument→spans pairs into `rsp[trigger_prompt]` — the mapping of the top-level
schema key, which Python reads with `rsp[trigger_prompt]` (a `KeyError` if
absent). -/
def eventTriggerLoop (oracle : Oracle) (sentence : Chars) (key : Chars)
    (args : List Chars) (prob_threshold : ℚ) (max_seq_len : Nat) :
    List Chars → NestedDict → List InferCall →
    Except UIEError (NestedDict × List InferCall)
  | [], rsp, tr => pure (rsp, tr)
  | trig :: rest, rsp, tr =>
    if trig = [] then
      eventTriggerLoop oracle sentence key args prob_threshold max_seq_len rest rsp tr
    else do
      let contents := List.replicate args.length sentence
      let prompts := args.map (fun a => trig ++ '的' :: a)
      let res ← inference oracle contents prompts max_seq_len prob_threshold
      let inner ← match dictGet rsp key with
        | some d => pure ((args.zip res).foldl (fun d2 ar => dictSet d2 ar.1 ar.2) d)
        | none => .error .keyError
      eventTriggerLoop oracle sentence key args prob_threshold max_seq_len rest
        (dictSet rsp key inner) (tr ++ [⟨contents, prompts, max_seq_len, prob_threshold⟩])

/-- Outer loop of `event_extract_example` (`inference.py` lines 107–132): per
schema key, initialise `rsp[trigger_prompt] = {}`, run stage one with
`max_length=128` on `[sentence] × [trigger_prompt]`, take element `[0]` of the
result (Python `IndexError` when empty), and process each trigger. -/
def eventKeyLoop (oracle : Oracle) (sentence : Chars) (prob_threshold : ℚ)
    (max_seq_len : Nat) :
    List (Chars × List Chars) → NestedDict → List InferCall →
    Except UIEError (NestedDict × List InferCall)
  | [], rsp, tr => pure (rsp, tr)
  | (key, args) :: rest, rsp, tr => do
    let rsp := dictSet rsp key []
    let stage1 ← inference oracle [sentence] [key] 128 prob_threshold
    let triggers ← match stage1 with
      | t :: _ => pure t
      | [] => .error .indexError
    let out ← eventTriggerLoop oracle sentence key args prob_threshold max_seq_len
      triggers rsp (tr ++ [⟨[sentence], [key], 128, prob_threshold⟩])
    eventKeyLoop oracle sentence prob_threshold max_seq_len rest out.1 out.2

/-- Embedding of `event_extract_example` (`inference.py` lines 73–133).  The
schema, a Python dict, is an insertion-ordered association list with unique
keys.  Like `ner_example`, the source prints `rsp` and falls off the end, so
its Python return value is `None`: the embedding returns the printed
dictionary, the actual return value (`none`), and the call trace. -/
def event_extract_example (oracle : Oracle) (sentence : Chars)
    (schema : List (Chars × List Chars)) (prob_threshold : ℚ)
    (max_seq_len : Nat) :
    Except UIEError (NestedDict × Option NestedDict × List InferCall) := do
  let out ← eventKeyLoop oracle sentence prob_threshold max_seq_len schema [] []
  pure (out.1, none, out.2)

/-- Inner loop of `information_extract_example` (`inference.py` lines
176–192): for each non-empty subject, set `rsp[subject] = {}`, issue one
dependent batch (`"{subject}的{p}"` per predicate, `max_length=max_seq_len`)
and write the predicate→spans pairs into the subject's own mapping
`rsp[subject]`. -/
def infoSubjectLoop (oracle : Oracle) (sentence : Chars)
    (predicates : List Chars) (prob_threshold : ℚ) (max_seq_len : Nat) :
    List Chars → NestedDict → List InferCall →
    Except UIEError (NestedDict × List InferCall)
  | [], rsp, tr => pure (rsp, tr)
  | subj :: rest, rsp, tr =>
    if subj = [] then
      infoSubjectLoop oracle sentence predicates prob_threshold max_seq_len rest rsp tr
    else do
      let rsp := dictSet rsp subj []
      let contents := List.replicate predicates.length sentence
      let prompts := predicates.map (fun p => subj ++ '的' :: p)
      let res ← inference oracle contents prompts max_seq_len prob_threshold
      let inner ← match dictGet rsp subj with
        | some d => pure ((predicates.zip res).foldl (fun d2 pr => dictSet d2 pr.1 pr.2) d)
        | none => .error .keyError
      infoSubjectLoop oracle sentence predicates prob_threshold max_seq_len rest
        (dictSet rsp subj inner) (tr ++ [⟨contents, prompts, max_seq_len, prob_threshold⟩])

/-- Outer loop of `information_extract_example` (`inference.py` lines
166–192): per schema key, run stage one with `max_length=128`, take element
`[0]` of the result, and process each subject.  Unlike the event variant, no
entry is created for the schema key itself. -/
def infoKeyLoop (oracle : Oracle) (sentence : Chars) (prob_threshold : ℚ)
    (max_seq_len : Nat) :
    List (Chars × List Chars) → NestedDict → List InferCall →
    Except UIEError (NestedDict × List InferCall)
  | [], rsp, tr => pure (rsp, tr)
  | (key, predicates) :: rest, rsp, tr => do
    let stage1 ← inference oracle [sentence] [key] 128 prob_threshold
    let subjects ← match stage1 with
      | t :: _ => pure t
      | [] => .error .indexError
    let out ← infoSubjectLoop oracle sentence predicates prob_threshold max_seq_len
      subjects rsp (tr ++ [⟨[sentence], [key], 128, prob_threshold⟩])
    infoKeyLoop oracle sentence prob_threshold max_seq_len rest out.1 out.2

/-- Embedding of `information_extract_example` (`inference.py` lines
136–193).  The source prints `rsp` and falls off the end, so its Python
return value is `None`: the embedding returns the printed dictionary, the
actual return value (`none`), and the call trace. -/
def information_extract_example (oracle : Oracle) (sentence : Chars)
    (schema : List (Chars × List Chars)) (prob_threshold : ℚ)
    (max_seq_len : Nat) :
    Except UIEError (NestedDict × Option NestedDict × List InferCall) := do
  let out ← infoKeyLoop oracle sentence prob_threshold max_seq_len schema [] []
  pure (out.1, none, out.2)

/-- An identity OffsetMap over a text of `n` characters: token `i` covers
exactly the character range `[i, i+1)`. -/
def identityOffsetMap (n : Nat) : List (Nat × Nat) :=
  (List.range n).map (fun i => (i, i + 1))

/-- A fixed collaborator used as concrete input: one probability row of
length 3, one offset-map row of length 6. -/
def probeOracle : Oracle := fun _ _ _ =>
  ⟨[[0, 0, 1]], [[0, 0, 1]],
    [[(0, 0), (0, 0), (0, 1), (0, 0), (0, 0), (0, 0)]]⟩

/-- A collaborator returning a ragged start-probability table. -/
def raggedOracle : Oracle := fun _ _ _ =>
  ⟨[[0], [0, 0]], [[0], [0]], [[], []]⟩

/-- A fixed collaborator returning two identical probability rows and
offset-map rows, for two-pair batches. -/
def pairOracle : Oracle := fun _ _ _ =>
  ⟨[[0, 0, 1], [0, 0, 1]], [[0, 0, 1], [0, 0, 1]],
    [[(0, 0), (0, 0), (0, 1), (0, 0), (0, 0), (0, 0)],
      [(0, 0), (0, 0), (0, 1), (0, 0), (0, 0), (0, 0)]]⟩

/-! ### Orchestrator call-trace shape -/

/-- The call pattern of one run of a two-level orchestrator over a schema:
for each schema key, one stage-one call `⟨[sentence], [key], 128, thr⟩`
(maximum token length fixed at 128), followed by a block of dependent
stage-two calls all carrying the caller-supplied `mx` as maximum token
length. -/
inductive CascadeTraceShape (sentence : Chars) (thr : ℚ) (mx : Nat) :
    List (Chars × List Chars) → List InferCall → Prop where
  | nil : CascadeTraceShape sentence thr mx [] []
  | cons (key : Chars) (args : List Chars) (t2 tr : List InferCall)
      (rest : List (Chars × List Chars)) :
      (∀ c ∈ t2, c.max_length = mx) →
      CascadeTraceShape sentence thr mx rest tr →
      CascadeTraceShape sentence thr mx ((key, args) :: rest)
        (⟨[sentence], [key], 128, thr⟩ :: (t2 ++ tr))

/-! ### Concrete collaborators for the orchestrator claims -/

/-- A collaborator whose probabilities are all zero: nothing is extracted. -/
def c1Oracle : Oracle := fun _ _ _ =>
  ⟨[[0], [0]], [[0], [0]], [[(0, 0)], [(0, 0)]]⟩

/-- Concrete sentence for flat-mode runs. -/
def sentA : Chars := ['a', 'b', 'c']

/-- Schema attribute name "color". -/
def colorS : Chars := ['c', 'o', 'l', 'o', 'r']

/-- Schema attribute name "size". -/
def sizeS : Chars := ['s', 'i', 'z', 'e']

/-- Concrete sentence for two-level runs: contains the instance "t1". -/
def sentC5 : Chars := ['t', '1', 'x']

/-- Top-level schema key for two-level runs. -/
def keyC5 : Chars := ['X']

/-- Dependent attribute name for two-level runs. -/
def argC5 : Chars := ['a']

/-- The stage-one instance extracted by `c5Oracle`. -/
def trigC5 : Chars := ['t', '1']

/-- A collaborator that lets stage one (`max_length = 128`) extract the
instance "t1" from `sentC5` under key `keyC5`, and returns empty rows for
every other call. -/
def c5Oracle : Oracle := fun _ _ m =>
  if m = 128 then
    ⟨[[0, 0, 0, 1]], [[0, 0, 0, 1]], [[(0, 0), (0, 0), (0, 0), (1, 3)]]⟩
  else ⟨[[]], [[]], [[]]⟩

/-! ### Helper lemmas -/

theorem mem_keptSpans (prompt : Chars) (spans : List (Nat × Nat)) (sp : Nat × Nat) :
    sp ∈ keptSpans prompt spans ↔ sp ∈ spans ∧ ¬ sp.1 < prompt.length + 2 := by
  simp [keptSpans, List.mem_filter]

theorem spanText_ok_of_bounds (ic : Chars) (om : List (Nat × Nat)) :
    ∀ idxs : List Nat, (∀ s ∈ idxs, s < om.length) →
      spanText ic om idxs =
        .ok ((idxs.map (fun s =>
          pySlice ic (om.getD s (0, 0)).1 (om.getD s (0, 0)).2)).flatten)
  | [], _ => rfl
  | s :: rest, h => by
    have hs : s < om.length := h s (List.mem_cons_self s rest)
    have hget : om.get? s = some (om.getD s (0, 0)) := by
      rw [List.getD_eq_get?]
      cases hq : om.get? s with
      | none => exact absurd (List.get?_eq_none.mp hq) (Nat.not_le_of_lt hs)
      | some v => rfl
    have ih := spanText_ok_of_bounds ic om rest (fun t ht => h t (List.mem_cons_of_mem s ht))
    simp only [spanText, hget, ih, List.map_cons, List.flatten_cons]
    rfl

theorem spanText_oob (ic : Chars) (om : List (Nat × Nat)) :
    ∀ idxs : List Nat, (∃ s ∈ idxs, om.length ≤ s) →
      spanText ic om idxs = .error .indexError
  | s :: rest, h => by
    by_cases hs : s < om.length
    · have hget : om.get? s = some (om.getD s (0, 0)) := by
        rw [List.getD_eq_get?]
        cases hq : om.get? s with
        | none => exact absurd (List.get?_eq_none.mp hq) (Nat.not_le_of_lt hs)
        | some v => rfl
      obtain ⟨t, ht, htlen⟩ := h
      rcases List.mem_cons.mp ht with rfl | ht2
      · exact absurd htlen (Nat.not_le_of_lt hs)
      · have ih := spanText_oob ic om rest ⟨t, ht2, htlen⟩
        simp only [spanText, hget, ih]
        rfl
    · have hget : om.get? s = none := List.get?_eq_none.mpr (Nat.le_of_not_lt hs)
      simp only [spanText, hget]
  | [], h => by simp at h

theorem join_single_slices (ic : Chars) :
    ∀ (n lo : Nat),
      ((List.range' lo n).map (fun s => (ic.drop s).take 1)).flatten = (ic.drop lo).take n
  | 0, lo => by simp
  | n + 1, lo => by
    rw [List.range'_succ]
    simp only [List.map_cons, List.flatten_cons]
    rw [join_single_slices ic n (lo + 1)]
    have hdd : ic.drop (lo + 1) = (ic.drop lo).drop 1 := by
      rw [List.drop_drop]
    cases hd : ic.drop lo with
    | nil => simp [hdd, hd]
    | cons c tl => simp [hdd, hd, List.take_succ_cons]

theorem identityOffsetMap_getD (n s : Nat) (hs : s < n) :
    (identityOffsetMap n).getD s (0, 0) = (s, s + 1) := by
  rw [List.getD_eq_get?, identityOffsetMap, List.get?_map]
  rw [List.get?_eq_getElem?, List.getElem?_range hs]
  rfl

theorem dropWhile_head_false {α : Type} {p : α → Bool} :
    ∀ (l : List α) (x : α) (xs : List α), l.dropWhile p = x :: xs → p x = false
  | [], x, xs => by intro h; simp [List.dropWhile] at h
  | y :: ys, x, xs => by
    intro h
    rw [List.dropWhile_cons] at h
    by_cases hp : p y
    · rw [if_pos hp] at h
      exact dropWhile_head_false ys x xs h
    · rw [if_neg hp] at h
      cases h
      simpa using hp

theorem get_span_sound :
    ∀ (ss es : List Nat), ∀ sp ∈ get_span ss es, sp.1 ≤ sp.2
  | [], es => by simp [get_span]
  | s :: ss, es => by
    intro sp hsp
    simp only [get_span] at hsp
    cases hdw : es.dropWhile (fun e => decide (e < s)) with
    | nil => rw [hdw] at hsp; simp at hsp
    | cons e es2 =>
      simp only [hdw] at hsp
      have hse : s ≤ e := by
        have := dropWhile_head_false es e es2 hdw
        simpa using this
      by_cases h : s = e
      · rw [if_pos h] at hsp
        rcases List.mem_cons.mp hsp with rfl | hm
        · exact hse
        · exact get_span_sound ss es2 sp hm
      · rw [if_neg h] at hsp
        rcases List.mem_cons.mp hsp with rfl | hm
        · exact hse
        · exact get_span_sound ss (e :: es2) sp hm

/-! ### Claim C3 -/

/-- Claim C3: for every (prompt, content) pair and every span produced by the
assembler, the Span Decoder excludes the span from the output iff its start
index is strictly less than `len(prompt) + 2`; in particular a span whose
start index equals `len(prompt) + 2` is kept.  `keptSpans` is exactly the
filter that `decodeRow` applies to the assembled span set. -/
theorem c3_prompt_region_filter (prompt : Chars) (spans : List (Nat × Nat))
    (sp : Nat × Nat) :
    (sp ∈ keptSpans prompt spans ↔ sp ∈ spans ∧ ¬ sp.1 < prompt.length + 2)
    ∧ (sp.1 = prompt.length + 2 → sp ∈ spans → sp ∈ keptSpans prompt spans) := by
  refine ⟨mem_keptSpans prompt spans sp, fun h1 h2 => ?_⟩
  exact (mem_keptSpans prompt spans sp).mpr ⟨h2, by omega⟩

/-- Witness for C3: with a 3-character prompt the boundary span `(5, 6)`
(start index `= 3 + 2`) is kept. -/
theorem c3_witness : (5, 6) ∈ keptSpans ['a', 'b', 'c'] [(2, 4), (5, 6)] :=
  (c3_prompt_region_filter ['a', 'b', 'c'] [(2, 4), (5, 6)] (5, 6)).2
    (by decide) (by decide)

/-! ### Claim C4 -/

/-- Claim C4: for a surviving span `(lo, hi)` whose token indices all lie
inside the OffsetMap, the decoded string is the concatenation, over token
indices `s` from `lo` to `hi` inclusive, of the character slices
`OffsetMap[s]` taken from `prompt ++ content`; and over an identity OffsetMap
on a known text the decoded substring is the exact character slice
`text[OffsetMap[lo].start : OffsetMap[hi].end]`. -/
theorem c4_span_decode_concatenation :
    (∀ (prompt content : Chars) (om : List (Nat × Nat)) (lo hi : Nat),
      (∀ s ∈ List.range' lo (hi + 1 - lo), s < om.length) →
      spanText (prompt ++ content) om (List.range' lo (hi + 1 - lo)) =
        .ok (((List.range' lo (hi + 1 - lo)).map (fun s =>
          pySlice (prompt ++ content) (om.getD s (0, 0)).1 (om.getD s (0, 0)).2)).flatten))
    ∧ (∀ (text : Chars) (lo hi : Nat), lo ≤ hi → hi < text.length →
      spanText text (identityOffsetMap text.length) (List.range' lo (hi + 1 - lo)) =
        .ok (pySlice text ((identityOffsetMap text.length).getD lo (0, 0)).1
          ((identityOffsetMap text.length).getD hi (0, 0)).2)) := by
  constructor
  · intro prompt content om lo hi h
    exact spanText_ok_of_bounds (prompt ++ content) om _ h
  · intro text lo hi hlohi hhi
    have hlen : (identityOffsetMap text.length).length = text.length := by
      simp [identityOffsetMap]
    have hmem : ∀ s ∈ List.range' lo (hi + 1 - lo), s < text.length := by
      intro s hs
      have := List.mem_range'_1.mp hs
      omega
    have hbound : ∀ s ∈ List.range' lo (hi + 1 - lo),
        s < (identityOffsetMap text.length).length := by
      intro s hs; rw [hlen]; exact hmem s hs
    rw [spanText_ok_of_bounds text _ _ hbound]
    have hmap : (List.range' lo (hi + 1 - lo)).map (fun s =>
        pySlice text ((identityOffsetMap text.length).getD s (0, 0)).1
          ((identityOffsetMap text.length).getD s (0, 0)).2) =
        (List.range' lo (hi + 1 - lo)).map (fun s => (text.drop s).take 1) := by
      apply List.map_congr_left
      intro s hs
      rw [identityOffsetMap_getD text.length s (hmem s hs)]
      simp [pySlice]
    rw [hmap, join_single_slices]
    rw [identityOffsetMap_getD text.length lo (by omega),
      identityOffsetMap_getD text.length hi hhi]
    rfl

/-- Witness for C4: both parts evaluated on a concrete text and span. -/
theorem c4_witness :
    spanText (['a'] ++ ['b', 'c']) [(0, 1), (1, 2), (2, 3)] (List.range' 1 (2 + 1 - 1)) =
      .ok (((List.range' 1 (2 + 1 - 1)).map (fun s =>
        pySlice (['a'] ++ ['b', 'c'])
          (([(0, 1), (1, 2), (2, 3)].getD s (0, 0)).1)
          (([(0, 1), (1, 2), (2, 3)].getD s (0, 0)).2))).flatten)
    ∧ spanText ['x', 'y', 'z'] (identityOffsetMap (['x', 'y', 'z'] : Chars).length)
        (List.range' 1 (2 + 1 - 1)) =
      .ok (pySlice ['x', 'y', 'z']
        ((identityOffsetMap (['x', 'y', 'z'] : Chars).length).getD 1 (0, 0)).1
        ((identityOffsetMap (['x', 'y', 'z'] : Chars).length).getD 2 (0, 0)).2) :=
  ⟨c4_span_decode_concatenation.1 ['a'] ['b', 'c'] [(0, 1), (1, 2), (2, 3)] 1 2
      (by decide),
    c4_span_decode_concatenation.2 ['x', 'y', 'z'] 1 2 (by decide) (by decide)⟩

/-! ### Claim C8 -/

/-- Counterexample to C8: the offset entries `(10, 20)` and `(30, 40)` point
far beyond the 5-character text `'ab' + 'cde'`, yet the decoder raises no
error at all — Python slicing clamps, and the span silently decodes to the
empty string. -/
theorem c8_counterexample :
    decodeRow [4] [5] ['a', 'b'] ['c', 'd', 'e']
        [(0, 0), (0, 0), (0, 0), (0, 0), (10, 20), (30, 40)] = .ok [[]]
    ∧ (['a', 'b'] ++ ['c', 'd', 'e'] : Chars).length = 5 := by
  constructor
  · rfl
  · rfl

/-- Claim C8 (amended): an OffsetMap entry whose character positions lie
beyond the concatenated text is clamped silently by slicing — whenever every
token index of the span lies inside the OffsetMap the decode succeeds,
whatever character positions the entries hold; the decoder fails (with
Python's `IndexError`, which aborts the call) only when some token index is
at or past the end of the OffsetMap itself. -/
theorem c8_clamping_and_index_error :
    (∀ (ic : Chars) (om : List (Nat × Nat)) (idxs : List Nat),
      (∀ s ∈ idxs, s < om.length) → ∃ v, spanText ic om idxs = .ok v)
    ∧ (∀ (ic : Chars) (om : List (Nat × Nat)) (idxs : List Nat),
      (∃ s ∈ idxs, om.length ≤ s) → spanText ic om idxs = .error .indexError) :=
  ⟨fun ic om idxs h => ⟨_, spanText_ok_of_bounds ic om idxs h⟩,
    fun ic om idxs h => spanText_oob ic om idxs h⟩

/-- Witness for C8 (amended): a one-token span with a wildly out-of-bounds
character range decodes without error, and a token index past the OffsetMap
raises `IndexError`. -/
theorem c8_witness :
    (∃ v, spanText ['a'] [(10, 20)] [0] = .ok v)
    ∧ spanText ['a'] [(10, 20)] [0, 3] = .error .indexError :=
  ⟨c8_clamping_and_index_error.1 ['a'] [(10, 20)] [0] (by decide),
    c8_clamping_and_index_error.2 ['a'] [(10, 20)] [0, 3] ⟨3, by decide, by decide⟩⟩

/-! ### Claim C9 -/

/-- Counterexample to C9: under the spec's own two-pointer rule, starts
`[2, 5]` with ends `[5, 6]` yield `[(2, 5), (5, 5)]` — after `2` pairs with
end `5` only the start cursor advances, so start `5` meets end `5` and pairs
equal — not the claimed `{(2, 5), (5, 6)}`. -/
theorem c9_counterexample :
    get_span [2, 5] [5, 6] = [(2, 5), (5, 5)]
    ∧ (5, 6) ∉ get_span [2, 5] [5, 6] := by
  constructor
  · rfl
  · decide

/-- Claim C9 (amended): the Span Assembler emits spans by the greedy
two-pointer rule (`s = e`: emit and advance both cursors; `s < e`: emit and
advance the start cursor only; `s > e`: advance the end cursor only), every
emitted span satisfies `start ≤ end`, and starts `[2, 5]` with ends `[5, 6]`
yield exactly `[(2, 5), (5, 5)]`. -/
theorem c9_assembler_rule :
    (∀ (s e : Nat) (ss es : List Nat), s = e →
      get_span (s :: ss) (e :: es) = (s, e) :: get_span ss es)
    ∧ (∀ (s e : Nat) (ss es : List Nat), s < e →
      get_span (s :: ss) (e :: es) = (s, e) :: get_span ss (e :: es))
    ∧ (∀ (s e : Nat) (ss es : List Nat), e < s →
      get_span (s :: ss) (e :: es) = get_span (s :: ss) es)
    ∧ (∀ (ss es : List Nat), ∀ sp ∈ get_span ss es, sp.1 ≤ sp.2)
    ∧ get_span [2, 5] [5, 6] = [(2, 5), (5, 5)] := by
  refine ⟨?_, ?_, ?_, get_span_sound, rfl⟩
  · intro s e ss es h
    have h1 : ¬ e < s := by omega
    simp [get_span, List.dropWhile_cons, h1, h]
  · intro s e ss es h
    have h1 : ¬ e < s := by omega
    have h2 : ¬ s = e := by omega
    simp [get_span, List.dropWhile_cons, h1, h2]
  · intro s e ss es h
    simp [get_span, List.dropWhile_cons, h]

/-- Witness for C9 (amended): the three cursor rules and the soundness bound
applied at concrete inputs. -/
theorem c9_witness :
    get_span [1] [1] = (1, 1) :: get_span [] []
    ∧ get_span [1] [3] = (1, 3) :: get_span [] [3]
    ∧ get_span [4] [3] = get_span [4] []
    ∧ (2, 5).1 ≤ (2, 5).2 :=
  ⟨c9_assembler_rule.1 1 1 [] [] rfl,
    c9_assembler_rule.2.1 1 3 [] [] (by decide),
    c9_assembler_rule.2.2.1 4 3 [] [] (by decide),
    c9_assembler_rule.2.2.2.1 [2, 5] [5, 6] (2, 5) (by decide)⟩

/-! ### Error analysis of the decode pipeline -/

theorem okBind {ε α β : Type} (v : α) (f : α → Except ε β) :
    (Except.ok v : Except ε α) >>= f = f v := rfl

theorem errBind {ε α β : Type} (e : ε) (f : α → Except ε β) :
    (Except.error e : Except ε α) >>= f = .error e := rfl

theorem spanText_cases (ic : Chars) (om : List (Nat × Nat)) :
    ∀ idxs : List Nat,
      (∃ v, spanText ic om idxs = .ok v) ∨ spanText ic om idxs = .error .indexError
  | [] => Or.inl ⟨[], rfl⟩
  | s :: rest => by
    cases hg : om.get? s with
    | none => exact Or.inr (by simp only [spanText, hg])
    | some off =>
      rcases spanText_cases ic om rest with ⟨v, hv⟩ | hv
      · exact Or.inl ⟨pySlice ic off.1 off.2 ++ v, by simp only [spanText, hg, hv]; rfl⟩
      · exact Or.inr (by simp only [spanText, hg, hv]; rfl)

theorem mapM_cases {α : Type} (f : α → Except UIEError Chars)
    (hf : ∀ x, (∃ v, f x = .ok v) ∨ f x = .error .indexError) :
    ∀ l : List α, (∃ v, l.mapM f = .ok v) ∨ l.mapM f = .error .indexError
  | [] => Or.inl ⟨[], rfl⟩
  | x :: xs => by
    rcases hf x with ⟨v, hv⟩ | hv
    · rcases mapM_cases f hf xs with ⟨vs, hvs⟩ | hvs
      · exact Or.inl ⟨v :: vs, by rw [List.mapM_cons, hv, hvs]; rfl⟩
      · exact Or.inr (by rw [List.mapM_cons, hv, hvs]; rfl)
    · exact Or.inr (by rw [List.mapM_cons, hv]; rfl)

theorem decodeRow_cases (sids eids : List Nat) (p c : Chars)
    (om : List (Nat × Nat)) :
    (∃ v, decodeRow sids eids p c om = .ok v)
    ∨ decodeRow sids eids p c om = .error .indexError :=
  mapM_cases _ (fun _ => spanText_cases _ _ _) _

theorem inferenceLoop_cases :
    ∀ (ls le : List (List Nat)) (lp lc : List Chars)
      (lo : List (List (Nat × Nat))),
      (∃ v, inferenceLoop ls le lp lc lo = .ok v)
      ∨ inferenceLoop ls le lp lc lo = .error .indexError := by
  intro ls
  induction ls with
  | nil => intro le lp lc lo; exact Or.inl ⟨[], rfl⟩
  | cons sids sl ih =>
    intro le lp lc lo
    rcases le with _ | ⟨eids, el⟩
    · exact Or.inl ⟨[], rfl⟩
    rcases lp with _ | ⟨p, pl⟩
    · exact Or.inl ⟨[], rfl⟩
    rcases lc with _ | ⟨c, cl⟩
    · exact Or.inl ⟨[], rfl⟩
    rcases lo with _ | ⟨om, oml⟩
    · exact Or.inl ⟨[], rfl⟩
    rcases decodeRow_cases sids eids p c om with ⟨v, hv⟩ | hv
    · rcases ih el pl cl oml with ⟨vs, hvs⟩ | hvs
      · exact Or.inl ⟨v :: vs, by simp only [inferenceLoop, hv, hvs]; rfl⟩
      · exact Or.inr (by simp only [inferenceLoop, hv, hvs]; rfl)
    · exact Or.inr (by simp only [inferenceLoop, hv]; rfl)

/-! ### Claim C7 -/

/-- Counterexample to C7: a batch whose probability rows have length 3 while
the offset map row has length 6 — inconsistent with the OffsetMap — does not
fail with a `ShapeError`: the call succeeds and decodes normally. -/
theorem c7_counterexample :
    (probeOracle [['x']] [[]] 512).output_sp.map List.length = [3]
    ∧ (probeOracle [['x']] [[]] 512).offset_mapping.map List.length = [6]
    ∧ inference probeOracle [['x']] [[]] 512 (0 : ℚ) = .ok [[['x']]] :=
  ⟨rfl, rfl, rfl⟩

/-- Claim C7 (amended): a Single-Prompt Inference call fails with
`ShapeError` iff one of its two probability tables is ragged (rows of unequal
length); consistency of row counts or row lengths with the OffsetMap is never
checked.  Failure remains atomic — the call is a single `Except` value, so a
row error aborts the whole call and no partial result is returned. -/
theorem c7_shape_error_iff (oracle : Oracle) (contents prompts : List Chars)
    (maxLen : Nat) (thr : ℚ) :
    inference oracle contents prompts maxLen thr = .error .shapeError
    ↔ (rectangular (oracle contents prompts maxLen).output_sp = false
      ∨ rectangular (oracle contents prompts maxLen).output_ep = false) := by
  unfold inference get_bool_ids_greater_than
  by_cases h1 : rectangular (oracle contents prompts maxLen).output_sp
  · by_cases h2 : rectangular (oracle contents prompts maxLen).output_ep
    · simp only [h1, h2, if_true, okBind]
      rcases inferenceLoop_cases
          ((oracle contents prompts maxLen).output_sp.map (fun row => boolIdsRow row thr))
          ((oracle contents prompts maxLen).output_ep.map (fun row => boolIdsRow row thr))
          prompts contents (oracle contents prompts maxLen).offset_mapping with
        ⟨v, hv⟩ | hv
      · simp [hv, h1, h2]
      · simp [hv, h1, h2]
    · simp [h1, h2, okBind, errBind]
  · simp [h1, errBind]

/-- Witness for C7 (amended): a ragged start table makes the whole call fail
with `ShapeError`. -/
theorem c7_witness :
    inference raggedOracle [['x'], ['y']] [[], []] 512 (0 : ℚ) =
      .error .shapeError :=
  (c7_shape_error_iff raggedOracle [['x'], ['y']] [[], []] 512 (0 : ℚ)).mpr
    (Or.inl rfl)

/-! ### Claim C2 -/

theorem boolIdsRow_empty (row : List ℚ) (thr : ℚ) (h1 : 1 ≤ thr)
    (h2 : ∀ q ∈ row, q ≤ 1) : boolIdsRow row thr = [] := by
  unfold boolIdsRow
  rw [List.filter_eq_nil.mpr, List.map_nil]
  intro a ha
  have hq : a.2 ≤ 1 := h2 a.2 (by
    have := @List.mem_enum _ a.2 a.1 row (by simpa using ha)
    rcases this with ⟨hi, hx⟩
    rw [hx]
    exact List.getElem_mem hi)
  simp only [decide_eq_true_eq, not_lt]
  exact le_trans hq h1

theorem inferenceLoop_all_empty :
    ∀ (ls le : List (List Nat)) (lp lc : List Chars)
      (lo : List (List (Nat × Nat))),
      (∀ r ∈ ls, r = []) → (∀ r ∈ le, r = []) →
      ∃ res, inferenceLoop ls le lp lc lo = .ok res ∧ ∀ r ∈ res, r = [] := by
  intro ls
  induction ls with
  | nil => intro le lp lc lo _ _; exact ⟨[], rfl, by simp⟩
  | cons sids sl ih =>
    intro le lp lc lo hls hle
    rcases le with _ | ⟨eids, el⟩
    · exact ⟨[], rfl, by simp⟩
    rcases lp with _ | ⟨p, pl⟩
    · exact ⟨[], rfl, by simp⟩
    rcases lc with _ | ⟨c, cl⟩
    · exact ⟨[], rfl, by simp⟩
    rcases lo with _ | ⟨om, oml⟩
    · exact ⟨[], rfl, by simp⟩
    have hs : sids = [] := hls sids (List.mem_cons_self _ _)
    have he : eids = [] := hle eids (List.mem_cons_self _ _)
    subst hs he
    obtain ⟨res, hres, hemp⟩ := ih el pl cl oml
      (fun r hr => hls r (List.mem_cons_of_mem _ hr))
      (fun r hr => hle r (List.mem_cons_of_mem _ hr))
    refine ⟨[] :: res, ?_, ?_⟩
    · simp only [inferenceLoop]
      rw [show decodeRow [] [] p c om = .ok [] from rfl, okBind, hres, okBind]
      rfl
    · intro r hr
      rcases List.mem_cons.mp hr with rfl | hr2
      · rfl
      · exact hemp r hr2

/-- Counterexample to C2: a threshold of `2` lies outside `[0, 1]` and a
`max_length` of `0` is non-positive, yet both calls complete normally with an
ordinary result — no `ConfigError` (which does not exist in the code) and no
failure of any kind occurs before or during the model invocation. -/
theorem c2_counterexample :
    inference probeOracle [['x']] [[]] 512 (2 : ℚ) = .ok [[]]
    ∧ inference probeOracle [['x']] [[]] 0 (0 : ℚ) = .ok [[['x']]] :=
  ⟨rfl, rfl⟩

/-- Claim C2 (amended): the inference entry points perform no validation of
`prob_threshold` or `max_length` and define no `ConfigError`; invalid values
are forwarded unchanged to the collaborator and the binarizer.  In
particular, for any threshold `≥ 1` (hence for every threshold above the
valid range), if the collaborator returns rectangular tables with all
probabilities `≤ 1`, the call returns `ok` with every row's span list empty
rather than raising anything. -/
theorem c2_no_validation (oracle : Oracle) (contents prompts : List Chars)
    (maxLen : Nat) (thr : ℚ) (h1 : 1 ≤ thr)
    (hrs : rectangular (oracle contents prompts maxLen).output_sp = true)
    (hre : rectangular (oracle contents prompts maxLen).output_ep = true)
    (hsp : ∀ row ∈ (oracle contents prompts maxLen).output_sp, ∀ q ∈ row, q ≤ 1)
    (hep : ∀ row ∈ (oracle contents prompts maxLen).output_ep, ∀ q ∈ row, q ≤ 1) :
    ∃ res, inference oracle contents prompts maxLen thr = .ok res
      ∧ ∀ r ∈ res, r = [] := by
  unfold inference get_bool_ids_greater_than
  simp only [hrs, hre, if_true, okBind]
  apply inferenceLoop_all_empty
  · intro r hr
    obtain ⟨row, hrow, hmap⟩ := List.mem_map.mp hr
    rw [← hmap]
    exact boolIdsRow_empty row thr h1 (hsp row hrow)
  · intro r hr
    obtain ⟨row, hrow, hmap⟩ := List.mem_map.mp hr
    rw [← hmap]
    exact boolIdsRow_empty row thr h1 (hep row hrow)

/-- Witness for C2 (amended): the out-of-range threshold `2` produces an
`ok` result with an empty row. -/
theorem c2_witness :
    ∃ res, inference probeOracle [['x']] [[]] 512 (2 : ℚ) = .ok res
      ∧ ∀ r ∈ res, r = [] :=
  c2_no_validation probeOracle [['x']] [[]] 512 (2 : ℚ) (by norm_num)
    rfl rfl (by decide) (by decide)

/-! ### Claim C6 -/

theorem inferenceLoop_length :
    ∀ (ls le : List (List Nat)) (lp lc : List Chars)
      (lo : List (List (Nat × Nat))) (res : List (List Chars)),
      le.length = ls.length → lp.length = ls.length → lc.length = ls.length →
      lo.length = ls.length → inferenceLoop ls le lp lc lo = .ok res →
      res.length = ls.length := by
  intro ls
  induction ls with
  | nil =>
    intro le lp lc lo res _ _ _ _ hrun
    cases hrun
    rfl
  | cons sids sl ih =>
    intro le lp lc lo res h2 h3 h4 h5 hrun
    rcases le with _ | ⟨eids, el⟩
    · simp at h2
    rcases lp with _ | ⟨p, pl⟩
    · simp at h3
    rcases lc with _ | ⟨c, cl⟩
    · simp at h4
    rcases lo with _ | ⟨om, oml⟩
    · simp at h5
    cases hd : decodeRow sids eids p c om with
    | error e => rw [inferenceLoop, hd, errBind] at hrun; cases hrun
    | ok row =>
      cases hrest : inferenceLoop sl el pl cl oml with
      | error e => rw [inferenceLoop, hd, okBind, hrest, errBind] at hrun; cases hrun
      | ok rest =>
        rw [inferenceLoop, hd, okBind, hrest, okBind] at hrun
        cases hrun
        have := ih el pl cl oml rest (by simpa using h2) (by simpa using h3)
          (by simpa using h4) (by simpa using h5) hrest
        simp [this]

theorem inferenceLoop_get? :
    ∀ (ls le : List (List Nat)) (lp lc : List Chars)
      (lo : List (List (Nat × Nat))) (res : List (List Chars)),
      inferenceLoop ls le lp lc lo = .ok res →
      ∀ (k : Nat) (sids eids : List Nat) (p c : Chars) (om : List (Nat × Nat)),
        ls.get? k = some sids → le.get? k = some eids → lp.get? k = some p →
        lc.get? k = some c → lo.get? k = some om →
        ∃ v, res.get? k = some v ∧ decodeRow sids eids p c om = .ok v := by
  intro ls
  induction ls with
  | nil =>
    intro le lp lc lo res _ k sids eids p c om h1 _ _ _ _
    simp at h1
  | cons sids0 sl ih =>
    intro le lp lc lo res hrun k sids eids p c om h1 h2 h3 h4 h5
    rcases le with _ | ⟨eids0, el⟩
    · simp at h2
    rcases lp with _ | ⟨p0, pl⟩
    · simp at h3
    rcases lc with _ | ⟨c0, cl⟩
    · simp at h4
    rcases lo with _ | ⟨om0, oml⟩
    · simp at h5
    cases hd : decodeRow sids0 eids0 p0 c0 om0 with
    | error e => rw [inferenceLoop, hd, errBind] at hrun; cases hrun
    | ok row =>
      cases hrest : inferenceLoop sl el pl cl oml with
      | error e => rw [inferenceLoop, hd, okBind, hrest, errBind] at hrun; cases hrun
      | ok rest =>
        rw [inferenceLoop, hd, okBind, hrest, okBind] at hrun
        cases hrun
        cases k with
        | zero =>
          simp only [List.get?] at h1 h2 h3 h4 h5
          cases h1; cases h2; cases h3; cases h4; cases h5
          exact ⟨row, rfl, hd⟩
        | succ k2 =>
          simp only [List.get?] at h1 h2 h3 h4 h5
          exact ih el pl cl oml rest hrest k2 sids eids p c om h1 h2 h3 h4 h5

/-- Claim C6: `inference` preserves the batch dimension — when the
collaborator returns one probability row and one offset-map row per input
pair, a successful call returns one result per pair, and the `k`-th result is
exactly the decode of the `k`-th pair's own rows, prompt and content, whatever
the order of the input pairs. -/
theorem c6_batch_order (oracle : Oracle) (contents prompts : List Chars)
    (maxLen : Nat) (thr : ℚ) (res : List (List Chars))
    (hsp : (oracle contents prompts maxLen).output_sp.length = contents.length)
    (hep : (oracle contents prompts maxLen).output_ep.length = contents.length)
    (hom : (oracle contents prompts maxLen).offset_mapping.length = contents.length)
    (hpl : prompts.length = contents.length)
    (hrun : inference oracle contents prompts maxLen thr = .ok res) :
    res.length = contents.length
    ∧ ∀ (k : Nat) (sprow eprow : List ℚ) (p c : Chars) (om : List (Nat × Nat)),
      (oracle contents prompts maxLen).output_sp.get? k = some sprow →
      (oracle contents prompts maxLen).output_ep.get? k = some eprow →
      prompts.get? k = some p → contents.get? k = some c →
      (oracle contents prompts maxLen).offset_mapping.get? k = some om →
      ∃ v, res.get? k = some v
        ∧ decodeRow (boolIdsRow sprow thr) (boolIdsRow eprow thr) p c om = .ok v := by
  unfold inference get_bool_ids_greater_than at hrun
  by_cases h1 : rectangular (oracle contents prompts maxLen).output_sp
  · by_cases h2 : rectangular (oracle contents prompts maxLen).output_ep
    · simp only [h1, h2, if_true, okBind] at hrun
      constructor
      · have := inferenceLoop_length _ _ _ _ _ res
          (by simpa using hep.trans hsp.symm) (by simpa using hpl.trans hsp.symm)
          (by simpa using hsp.symm) (by simpa using hom.trans hsp.symm) hrun
        simpa [hsp] using this
      · intro k sprow eprow p c om g1 g2 g3 g4 g5
        refine inferenceLoop_get? _ _ _ _ _ res hrun k
          (boolIdsRow sprow thr) (boolIdsRow eprow thr) p c om ?_ ?_ g3 g4 g5
        · rw [List.get?_map, g1]; rfl
        · rw [List.get?_map, g2]; rfl
    · simp [h1, h2, okBind, errBind] at hrun
  · simp [h1, errBind] at hrun

/-- Witness for C6: a two-pair batch evaluated concretely; the second pair's
result is the decode of the second pair's own rows. -/
theorem c6_witness :
    ∃ v, [[], [['y']]].get? 1 = some v
      ∧ decodeRow (boolIdsRow [0, 0, 1] 0) (boolIdsRow [0, 0, 1] 0)
          [] ['y'] [(0, 0), (0, 0), (0, 1), (0, 0), (0, 0), (0, 0)] = .ok v :=
  (c6_batch_order pairOracle [['x'], ['y']] [['p'], []] 7 0 [[], [['y']]]
    rfl rfl rfl rfl rfl).2 1 [0, 0, 1] [0, 0, 1] [] ['y']
    [(0, 0), (0, 0), (0, 1), (0, 0), (0, 0), (0, 0)] rfl rfl rfl rfl rfl

/-- Reduction of `pure` to `Except.ok`. -/
theorem pureOk {ε α : Type} (v : α) : (pure v : Except ε α) = .ok v := rfl

/-! ### Dictionary lemmas -/

theorem dictGet_dictSet_self {κ α : Type} [DecidableEq κ] :
    ∀ (d : List (κ × α)) (k : κ) (v : α), dictGet (dictSet d k v) k = some v
  | [], k, v => by simp [dictGet, dictSet]
  | kv :: rest, k, v => by
    by_cases h : kv.1 = k
    · simp [dictGet, dictSet, h]
    · simp [dictGet, dictSet, h, dictGet_dictSet_self rest k v]

theorem dictGet_dictSet_ne {κ α : Type} [DecidableEq κ] :
    ∀ (d : List (κ × α)) (k : κ) (v : α) (k2 : κ), k ≠ k2 →
      dictGet (dictSet d k v) k2 = dictGet d k2
  | [], k, v, k2, hne => by simp [dictGet, dictSet, hne]
  | kv :: rest, k, v, k2, hne => by
    by_cases h : kv.1 = k
    · have h2 : ¬ kv.1 = k2 := by rw [h]; exact hne
      simp [dictGet, dictSet, h, h2, hne]
    · by_cases h3 : kv.1 = k2
      · simp [dictGet, dictSet, h, h3, Ne.symm hne]
      · simp [dictGet, dictSet, h, h3, dictGet_dictSet_ne rest k v k2 hne]

theorem dictGet_isSome_dictSet {κ α : Type} [DecidableEq κ]
    (d : List (κ × α)) (k : κ) (v : α) (k2 : κ)
    (h : (dictGet d k2).isSome) : (dictGet (dictSet d k v) k2).isSome := by
  by_cases hk : k = k2
  · subst hk
    rw [dictGet_dictSet_self]
    rfl
  · rw [dictGet_dictSet_ne d k v k2 hk]
    exact h

theorem dictSet_keys_of_mem {κ α : Type} [DecidableEq κ] :
    ∀ (d : List (κ × α)) (k : κ) (v w : α), dictGet d k = some w →
      (dictSet d k v).map Prod.fst = d.map Prod.fst
  | [], k, v, w => by simp [dictGet]
  | kv :: rest, k, v, w => by
    intro h
    by_cases hk : kv.1 = k
    · simp [dictSet, hk]
    · simp only [dictGet, hk, if_neg] at h
      simp [dictSet, hk, dictSet_keys_of_mem rest k v w h]

/-! ### Orchestrator loop analysis -/

theorem infoSubjectLoop_spec (oracle : Oracle) (sentence : Chars)
    (preds : List Chars) (thr : ℚ) (mx : Nat) :
    ∀ (subjects : List Chars) (rsp : NestedDict) (tr : List InferCall)
      (rsp2 : NestedDict) (tr2 : List InferCall),
      infoSubjectLoop oracle sentence preds thr mx subjects rsp tr = .ok (rsp2, tr2) →
      tr2 = tr ++ (subjects.filter (fun s => decide (s ≠ []))).map (fun subj =>
          (⟨List.replicate preds.length sentence,
            preds.map (fun p => subj ++ '的' :: p), mx, thr⟩ : InferCall))
      ∧ (∀ subj ∈ subjects, subj ≠ [] → (dictGet rsp2 subj).isSome)
      ∧ (∀ k2 : Chars, (dictGet rsp k2).isSome → (dictGet rsp2 k2).isSome)
      ∧ ((∀ subj ∈ subjects, subj = []) → rsp2 = rsp ∧ tr2 = tr) := by
  intro subjects
  induction subjects with
  | nil =>
    intro rsp tr rsp2 tr2 h
    rw [show infoSubjectLoop oracle sentence preds thr mx [] rsp tr
        = pure (rsp, tr) from rfl, pureOk] at h
    injection h with h1
    injection h1 with ha hb
    subst ha; subst hb
    exact ⟨by simp, by simp, fun _ h => h, fun _ => ⟨rfl, rfl⟩⟩
  | cons subj rest ih =>
    intro rsp tr rsp2 tr2 h
    by_cases hsubj : subj = []
    · rw [show infoSubjectLoop oracle sentence preds thr mx (subj :: rest) rsp tr
          = infoSubjectLoop oracle sentence preds thr mx rest rsp tr from by
            simp [infoSubjectLoop, hsubj]] at h
      obtain ⟨h1, h2, h3, h4⟩ := ih rsp tr rsp2 tr2 h
      subst hsubj
      refine ⟨by simpa using h1, ?_, h3, ?_⟩
      · intro s hs hne
        rcases List.mem_cons.mp hs with rfl | hs2
        · exact absurd rfl hne
        · exact h2 s hs2 hne
      · intro hall
        exact h4 (fun s hs => hall s (List.mem_cons_of_mem _ hs))
    · simp only [infoSubjectLoop, if_neg hsubj] at h
      cases hres : inference oracle (List.replicate preds.length sentence)
          (preds.map (fun p => subj ++ '的' :: p)) mx thr with
      | error e => rw [hres, errBind] at h; cases h
      | ok res =>
        rw [hres, okBind] at h
        simp only [dictGet_dictSet_self, pureOk, okBind] at h
        obtain ⟨h1, h2, h3, h4⟩ := ih _ _ rsp2 tr2 h
        refine ⟨?_, ?_, ?_, ?_⟩
        · rw [h1]
          simp [List.filter_cons, hsubj, List.append_assoc]
        · intro s hs hne
          rcases List.mem_cons.mp hs with rfl | hs2
          · refine h3 s ?_
            rw [dictGet_dictSet_self]
            rfl
          · exact h2 s hs2 hne
        · intro k2 hk2
          exact h3 k2 (dictGet_isSome_dictSet _ _ _ _
            (dictGet_isSome_dictSet _ _ _ _ hk2))
        · intro hall
          exact absurd (hall subj (List.mem_cons_self _ _)) hsubj

theorem eventTriggerLoop_spec (oracle : Oracle) (sentence key : Chars)
    (args : List Chars) (thr : ℚ) (mx : Nat) :
    ∀ (triggers : List Chars) (rsp : NestedDict) (tr : List InferCall)
      (rsp2 : NestedDict) (tr2 : List InferCall),
      eventTriggerLoop oracle sentence key args thr mx triggers rsp tr = .ok (rsp2, tr2) →
      tr2 = tr ++ (triggers.filter (fun s => decide (s ≠ []))).map (fun trig =>
          (⟨List.replicate args.length sentence,
            args.map (fun a => trig ++ '的' :: a), mx, thr⟩ : InferCall))
      ∧ rsp2.map Prod.fst = rsp.map Prod.fst
      ∧ ((∀ t ∈ triggers, t = []) → rsp2 = rsp ∧ tr2 = tr) := by
  intro triggers
  induction triggers with
  | nil =>
    intro rsp tr rsp2 tr2 h
    rw [show eventTriggerLoop oracle sentence key args thr mx [] rsp tr
        = pure (rsp, tr) from rfl, pureOk] at h
    injection h with h1
    injection h1 with ha hb
    subst ha; subst hb
    exact ⟨by simp, rfl, fun _ => ⟨rfl, rfl⟩⟩
  | cons trig rest ih =>
    intro rsp tr rsp2 tr2 h
    by_cases htrig : trig = []
    · rw [show eventTriggerLoop oracle sentence key args thr mx (trig :: rest) rsp tr
          = eventTriggerLoop oracle sentence key args thr mx rest rsp tr from by
            simp [eventTriggerLoop, htrig]] at h
      obtain ⟨h1, h2, h3⟩ := ih rsp tr rsp2 tr2 h
      subst htrig
      refine ⟨by simpa using h1, h2, ?_⟩
      intro hall
      exact h3 (fun s hs => hall s (List.mem_cons_of_mem _ hs))
    · simp only [eventTriggerLoop, if_neg htrig] at h
      cases hres : inference oracle (List.replicate args.length sentence)
          (args.map (fun a => trig ++ '的' :: a)) mx thr with
      | error e => rw [hres, errBind] at h; cases h
      | ok res =>
        rw [hres, okBind] at h
        cases hdg : dictGet rsp key with
        | none => simp only [hdg, errBind] at h; cases h
        | some d =>
          simp only [hdg, pureOk, okBind] at h
          obtain ⟨h1, h2, h3⟩ := ih _ _ rsp2 tr2 h
          refine ⟨?_, ?_, ?_⟩
          · rw [h1]
            simp [List.filter_cons, htrig, List.append_assoc]
          · rw [h2]
            exact dictSet_keys_of_mem rsp key _ d hdg
          · intro hall
            exact absurd (hall trig (List.mem_cons_self _ _)) htrig

theorem eventKeyLoop_shape (oracle : Oracle) (sentence : Chars) (thr : ℚ) (mx : Nat) :
    ∀ (schema : List (Chars × List Chars)) (rsp : NestedDict) (tr : List InferCall)
      (rsp2 : NestedDict) (tr2 : List InferCall),
      eventKeyLoop oracle sentence thr mx schema rsp tr = .ok (rsp2, tr2) →
      ∃ trNew, tr2 = tr ++ trNew ∧ CascadeTraceShape sentence thr mx schema trNew := by
  intro schema
  induction schema with
  | nil =>
    intro rsp tr rsp2 tr2 h
    rw [show eventKeyLoop oracle sentence thr mx [] rsp tr = pure (rsp, tr) from rfl,
      pureOk] at h
    injection h with h1
    injection h1 with ha hb
    subst ha; subst hb
    exact ⟨[], by simp, .nil⟩
  | cons kv rest ih =>
    obtain ⟨key, args⟩ := kv
    intro rsp tr rsp2 tr2 h
    simp only [eventKeyLoop] at h
    cases hst : inference oracle [sentence] [key] 128 thr with
    | error e => rw [hst, errBind] at h; cases h
    | ok st =>
      rw [hst, okBind] at h
      cases st with
      | nil =>
        have h2 : (Except.error UIEError.indexError :
            Except UIEError (NestedDict × List InferCall)) = .ok (rsp2, tr2) := h
        cases h2
      | cons t st2 =>
        have h2 : (eventTriggerLoop oracle sentence key args thr mx t
            (dictSet rsp key []) (tr ++ [⟨[sentence], [key], 128, thr⟩]) >>=
              fun out => eventKeyLoop oracle sentence thr mx rest out.1 out.2)
            = .ok (rsp2, tr2) := h
        cases hloop : eventTriggerLoop oracle sentence key args thr mx t
            (dictSet rsp key []) (tr ++ [⟨[sentence], [key], 128, thr⟩]) with
        | error e => rw [hloop, errBind] at h2; cases h2
        | ok out =>
          rw [hloop, okBind] at h2
          obtain ⟨h1, _hkeys, _⟩ := eventTriggerLoop_spec oracle sentence key args thr mx
            t (dictSet rsp key []) (tr ++ [⟨[sentence], [key], 128, thr⟩]) out.1 out.2
            (by rw [hloop])
          obtain ⟨trNew2, htr2, hshape⟩ := ih out.1 out.2 rsp2 tr2 h2
          refine ⟨⟨[sentence], [key], 128, thr⟩ ::
              ((t.filter (fun s => decide (s ≠ []))).map (fun trig =>
                (⟨List.replicate args.length sentence,
                  args.map (fun a => trig ++ '的' :: a), mx, thr⟩ : InferCall)) ++ trNew2),
            ?_, ?_⟩
          · rw [htr2, h1]
            simp [List.append_assoc]
          · refine CascadeTraceShape.cons key args _ trNew2 rest ?_ hshape
            intro c hc
            obtain ⟨trig, _, rfl⟩ := List.mem_map.mp hc
            rfl

theorem infoKeyLoop_shape (oracle : Oracle) (sentence : Chars) (thr : ℚ) (mx : Nat) :
    ∀ (schema : List (Chars × List Chars)) (rsp : NestedDict) (tr : List InferCall)
      (rsp2 : NestedDict) (tr2 : List InferCall),
      infoKeyLoop oracle sentence thr mx schema rsp tr = .ok (rsp2, tr2) →
      ∃ trNew, tr2 = tr ++ trNew ∧ CascadeTraceShape sentence thr mx schema trNew := by
  intro schema
  induction schema with
  | nil =>
    intro rsp tr rsp2 tr2 h
    rw [show infoKeyLoop oracle sentence thr mx [] rsp tr = pure (rsp, tr) from rfl,
      pureOk] at h
    injection h with h1
    injection h1 with ha hb
    subst ha; subst hb
    exact ⟨[], by simp, .nil⟩
  | cons kv rest ih =>
    obtain ⟨key, preds⟩ := kv
    intro rsp tr rsp2 tr2 h
    simp only [infoKeyLoop] at h
    cases hst : inference oracle [sentence] [key] 128 thr with
    | error e => rw [hst, errBind] at h; cases h
    | ok st =>
      rw [hst, okBind] at h
      cases st with
      | nil =>
        have h2 : (Except.error UIEError.indexError :
            Except UIEError (NestedDict × List InferCall)) = .ok (rsp2, tr2) := h
        cases h2
      | cons t st2 =>
        have h2 : (infoSubjectLoop oracle sentence preds thr mx t
            rsp (tr ++ [⟨[sentence], [key], 128, thr⟩]) >>=
              fun out => infoKeyLoop oracle sentence thr mx rest out.1 out.2)
            = .ok (rsp2, tr2) := h
        cases hloop : infoSubjectLoop oracle sentence preds thr mx t
            rsp (tr ++ [⟨[sentence], [key], 128, thr⟩]) with
        | error e => rw [hloop, errBind] at h2; cases h2
        | ok out =>
          rw [hloop, okBind] at h2
          obtain ⟨h1, _, _, _⟩ := infoSubjectLoop_spec oracle sentence preds thr mx
            t rsp (tr ++ [⟨[sentence], [key], 128, thr⟩]) out.1 out.2 (by rw [hloop])
          obtain ⟨trNew2, htr2, hshape⟩ := ih out.1 out.2 rsp2 tr2 h2
          refine ⟨⟨[sentence], [key], 128, thr⟩ ::
              ((t.filter (fun s => decide (s ≠ []))).map (fun subj =>
                (⟨List.replicate preds.length sentence,
                  preds.map (fun p => subj ++ '的' :: p), mx, thr⟩ : InferCall)) ++ trNew2),
            ?_, ?_⟩
          · rw [htr2, h1]
            simp [List.append_assoc]
          · refine CascadeTraceShape.cons key preds _ trNew2 rest ?_ hshape
            intro c hc
            obtain ⟨subj, _, rfl⟩ := List.mem_map.mp hc
            rfl

/-! ### Claim C1 -/

/-- Claim C1 (code bug): in flat/NER mode the orchestrator assembles exactly
the claimed `ExtractionResult` — one key per schema attribute, in schema
order, each mapped to an ordered (possibly empty) list of strings — but only
prints it: `ner_example` ends without a `return` statement, so the value its
caller receives is Python's `None` (the `none` in the second component),
contradicting the function's own `-> dict` annotation and docstring. -/
theorem c1_flat_result_printed_not_returned :
    ner_example c1Oracle sentA [colorS, sizeS] 0 =
      .ok ([(colorS, []), (sizeS, [])], none,
        [⟨[sentA, sentA], [colorS, sizeS], 128, 0⟩]) := rfl

/-! ### Claim C5 -/

/-- Counterexample to C5: in trigger→argument mode the dependent results are
stored under the top-level schema key `"X"`, not under the extracted
instance's own mapping — the final result holds no key `"t1"` even though
`"t1"` is the stage-one instance whose dependent batch was issued. -/
theorem c5_counterexample :
    event_extract_example c5Oracle sentC5 [(keyC5, [argC5])] 0 7 =
      .ok ([(keyC5, [(argC5, [])])], none,
        [⟨[sentC5], [keyC5], 128, 0⟩,
          ⟨[sentC5], [['t', '1', '的', 'a']], 7, 0⟩])
    ∧ dictGet ([(keyC5, [(argC5, [])])] : NestedDict) trigC5 = none := ⟨rfl, rfl⟩

/-- Claim C5 (amended): for a one-key two-level schema, every non-empty
stage-one instance triggers exactly one dependent batch — one prompt
`"{instance}的{attribute}"` per dependent attribute, all over the original
sentence — and empty instances trigger none; in subject→predicate mode
(`information_extract_example`) the resulting entries live under the
instance's own mapping and an instance-free stage one leaves the result
empty, while in trigger→argument mode (`event_extract_example`) every entry
lives under the top-level schema key, which is present (and maps to an empty
dictionary when stage one yields no instance). -/
theorem c5_cascade_storage (oracle : Oracle) (sentence key : Chars)
    (preds args : List Chars) (thr : ℚ) (mx : Nat)
    (subjects : List Chars) (rest1 : List (List Chars))
    (rspI rspE : NestedDict) (trI trE : List InferCall)
    (hs1 : inference oracle [sentence] [key] 128 thr = .ok (subjects :: rest1))
    (hinfo : information_extract_example oracle sentence [(key, preds)] thr mx
      = .ok (rspI, none, trI))
    (hevent : event_extract_example oracle sentence [(key, args)] thr mx
      = .ok (rspE, none, trE)) :
    trI = ⟨[sentence], [key], 128, thr⟩ ::
        (subjects.filter (fun s => decide (s ≠ []))).map (fun subj =>
          ⟨List.replicate preds.length sentence,
            preds.map (fun p => subj ++ '的' :: p), mx, thr⟩)
    ∧ (∀ subj ∈ subjects, subj ≠ [] → (dictGet rspI subj).isSome)
    ∧ ((∀ subj ∈ subjects, subj = []) → rspI = [])
    ∧ trE = ⟨[sentence], [key], 128, thr⟩ ::
        (subjects.filter (fun s => decide (s ≠ []))).map (fun trig =>
          ⟨List.replicate args.length sentence,
            args.map (fun a => trig ++ '的' :: a), mx, thr⟩)
    ∧ rspE.map Prod.fst = [key]
    ∧ ((∀ subj ∈ subjects, subj = []) → rspE = [(key, [])]) := by
  have hinfoPart :
      trI = ⟨[sentence], [key], 128, thr⟩ ::
          (subjects.filter (fun s => decide (s ≠ []))).map (fun subj =>
            ⟨List.replicate preds.length sentence,
              preds.map (fun p => subj ++ '的' :: p), mx, thr⟩)
      ∧ (∀ subj ∈ subjects, subj ≠ [] → (dictGet rspI subj).isSome)
      ∧ ((∀ subj ∈ subjects, subj = []) → rspI = []) := by
    unfold information_extract_example at hinfo
    cases hkey : infoKeyLoop oracle sentence thr mx [(key, preds)] [] [] with
    | error e => rw [hkey, errBind] at hinfo; cases hinfo
    | ok out =>
      rw [hkey, okBind, pureOk] at hinfo
      injection hinfo with h1
      injection h1 with ha h2
      injection h2 with hb hc
      subst ha; subst hc
      simp only [infoKeyLoop] at hkey
      rw [hs1, okBind] at hkey
      have h3 : (infoSubjectLoop oracle sentence preds thr mx subjects
          [] ([] ++ [⟨[sentence], [key], 128, thr⟩]) >>=
            fun out2 => infoKeyLoop oracle sentence thr mx [] out2.1 out2.2)
          = .ok out := hkey
      cases hsl : infoSubjectLoop oracle sentence preds thr mx subjects
          [] ([] ++ [⟨[sentence], [key], 128, thr⟩]) with
      | error e => rw [hsl, errBind] at h3; cases h3
      | ok out2 =>
        rw [hsl, okBind] at h3
        rw [show infoKeyLoop oracle sentence thr mx [] out2.1 out2.2
            = pure (out2.1, out2.2) from rfl, pureOk] at h3
        injection h3 with h4
        subst h4
        obtain ⟨s1, s2, _s3, s4⟩ := infoSubjectLoop_spec oracle sentence preds thr mx
          subjects [] ([] ++ [⟨[sentence], [key], 128, thr⟩]) out2.1 out2.2 hsl
        refine ⟨by simpa using s1, s2, ?_⟩
        intro hall
        exact (s4 hall).1
  have heventPart :
      trE = ⟨[sentence], [key], 128, thr⟩ ::
          (subjects.filter (fun s => decide (s ≠ []))).map (fun trig =>
            ⟨List.replicate args.length sentence,
              args.map (fun a => trig ++ '的' :: a), mx, thr⟩)
      ∧ rspE.map Prod.fst = [key]
      ∧ ((∀ subj ∈ subjects, subj = []) → rspE = [(key, [])]) := by
    unfold event_extract_example at hevent
    cases hkey : eventKeyLoop oracle sentence thr mx [(key, args)] [] [] with
    | error e => rw [hkey, errBind] at hevent; cases hevent
    | ok out =>
      rw [hkey, okBind, pureOk] at hevent
      injection hevent with h1
      injection h1 with ha h2
      injection h2 with hb hc
      subst ha; subst hc
      simp only [eventKeyLoop] at hkey
      rw [hs1, okBind] at hkey
      have h3 : (eventTriggerLoop oracle sentence key args thr mx subjects
          (dictSet [] key []) ([] ++ [⟨[sentence], [key], 128, thr⟩]) >>=
            fun out2 => eventKeyLoop oracle sentence thr mx [] out2.1 out2.2)
          = .ok out := hkey
      cases hsl : eventTriggerLoop oracle sentence key args thr mx subjects
          (dictSet [] key []) ([] ++ [⟨[sentence], [key], 128, thr⟩]) with
      | error e => rw [hsl, errBind] at h3; cases h3
      | ok out2 =>
        rw [hsl, okBind] at h3
        rw [show eventKeyLoop oracle sentence thr mx [] out2.1 out2.2
            = pure (out2.1, out2.2) from rfl, pureOk] at h3
        injection h3 with h4
        subst h4
        obtain ⟨s1, s2, s3⟩ := eventTriggerLoop_spec oracle sentence key args thr mx
          subjects (dictSet [] key []) ([] ++ [⟨[sentence], [key], 128, thr⟩])
          out2.1 out2.2 hsl
        refine ⟨by simpa using s1, by simpa [dictSet] using s2, ?_⟩
        intro hall
        have := (s3 hall).1
        simpa [dictSet] using this
  exact ⟨hinfoPart.1, hinfoPart.2.1, hinfoPart.2.2,
    heventPart.1, heventPart.2.1, heventPart.2.2⟩

/-- Witness for C5 (amended): the concrete run where stage one extracts
`"t1"`; the dependent-batch trace and the storage of the entry under the
instance's own key (info mode) follow by applying the theorem. -/
theorem c5_witness :
    ([⟨[sentC5], [keyC5], 128, (0 : ℚ)⟩,
        ⟨[sentC5], [['t', '1', '的', 'a']], 7, 0⟩] : List InferCall) =
      ⟨[sentC5], [keyC5], 128, 0⟩ ::
        (([trigC5].filter (fun s => decide (s ≠ []))).map (fun subj =>
          ⟨List.replicate ([argC5] : List Chars).length sentC5,
            ([argC5] : List Chars).map (fun p => subj ++ '的' :: p), 7, 0⟩))
    ∧ (∀ subj ∈ ([trigC5] : List Chars), subj ≠ [] →
        (dictGet ([(trigC5, [(argC5, [])])] : NestedDict) subj).isSome) := by
  have h := c5_cascade_storage c5Oracle sentC5 keyC5 [argC5] [argC5] 0 7
    [trigC5] [] [(trigC5, [(argC5, [])])] [(keyC5, [(argC5, [])])]
    [⟨[sentC5], [keyC5], 128, 0⟩, ⟨[sentC5], [['t', '1', '的', 'a']], 7, 0⟩]
    [⟨[sentC5], [keyC5], 128, 0⟩, ⟨[sentC5], [['t', '1', '的', 'a']], 7, 0⟩]
    rfl rfl rfl
  exact ⟨h.1, h.2.1⟩

/-! ### Claim C10 -/

/-- Claim C10: the flat/NER orchestrator always calls `inference` with
maximum token length 128; both two-level orchestrators issue, per schema key,
their stage-one call with maximum token length fixed at 128 — whatever
`max_seq_len` the caller supplied — while every dependent stage-two call
carries the caller's `max_seq_len`. -/
theorem c10_stage_max_lengths :
    (∀ (oracle : Oracle) (sentence : Chars) (schema : List Chars) (thr : ℚ)
      (rsp : List (Chars × List Chars)) (ret : Option (List (Chars × List Chars)))
      (tr : List InferCall),
      ner_example oracle sentence schema thr = .ok (rsp, ret, tr) →
      ∀ c ∈ tr, c.max_length = 128)
    ∧ (∀ (oracle : Oracle) (sentence : Chars) (schema : List (Chars × List Chars))
      (thr : ℚ) (mx : Nat) (rsp : NestedDict) (ret : Option NestedDict)
      (tr : List InferCall),
      event_extract_example oracle sentence schema thr mx = .ok (rsp, ret, tr) →
      CascadeTraceShape sentence thr mx schema tr)
    ∧ (∀ (oracle : Oracle) (sentence : Chars) (schema : List (Chars × List Chars))
      (thr : ℚ) (mx : Nat) (rsp : NestedDict) (ret : Option NestedDict)
      (tr : List InferCall),
      information_extract_example oracle sentence schema thr mx = .ok (rsp, ret, tr) →
      CascadeTraceShape sentence thr mx schema tr) := by
  refine ⟨?_, ?_, ?_⟩
  · intro oracle sentence schema thr rsp ret tr h c hc
    simp only [ner_example] at h
    cases hres : inference oracle (List.replicate schema.length sentence)
        schema 128 thr with
    | error e => rw [hres, errBind] at h; cases h
    | ok res =>
      rw [hres, okBind, pureOk] at h
      injection h with h1
      injection h1 with ha h2
      injection h2 with hb hc2
      subst hc2
      rcases List.mem_cons.mp hc with rfl | hc3
      · rfl
      · simp at hc3
  · intro oracle sentence schema thr mx rsp ret tr h
    unfold event_extract_example at h
    cases hkey : eventKeyLoop oracle sentence thr mx schema [] [] with
    | error e => rw [hkey, errBind] at h; cases h
    | ok out =>
      rw [hkey, okBind, pureOk] at h
      injection h with h1
      injection h1 with ha h2
      injection h2 with hb hc2
      subst hc2
      obtain ⟨trNew, htr, hshape⟩ := eventKeyLoop_shape oracle sentence thr mx
        schema [] [] out.1 out.2 (by rw [hkey])
      rw [htr]
      simpa using hshape
  · intro oracle sentence schema thr mx rsp ret tr h
    unfold information_extract_example at h
    cases hkey : infoKeyLoop oracle sentence thr mx schema [] [] with
    | error e => rw [hkey, errBind] at h; cases h
    | ok out =>
      rw [hkey, okBind, pureOk] at h
      injection h with h1
      injection h1 with ha h2
      injection h2 with hb hc2
      subst hc2
      obtain ⟨trNew, htr, hshape⟩ := infoKeyLoop_shape oracle sentence thr mx
        schema [] [] out.1 out.2 (by rw [hkey])
      rw [htr]
      simpa using hshape

/-- Witness for C10: concrete flat and two-level runs; the two-level trace
has its stage-one call at 128 and its dependent call at the caller's
`max_seq_len` of 7. -/
theorem c10_witness :
    (∀ c ∈ ([⟨[sentA, sentA], [colorS, sizeS], 128, (0 : ℚ)⟩] : List InferCall),
      c.max_length = 128)
    ∧ CascadeTraceShape sentC5 0 7 [(keyC5, [argC5])]
        [⟨[sentC5], [keyC5], 128, 0⟩, ⟨[sentC5], [['t', '1', '的', 'a']], 7, 0⟩]
    ∧ CascadeTraceShape sentC5 0 7 [(keyC5, [argC5])]
        [⟨[sentC5], [keyC5], 128, 0⟩, ⟨[sentC5], [['t', '1', '的', 'a']], 7, 0⟩] :=
  ⟨c10_stage_max_lengths.1 c1Oracle sentA [colorS, sizeS] 0
      [(colorS, []), (sizeS, [])] none
      [⟨[sentA, sentA], [colorS, sizeS], 128, 0⟩] rfl,
    c10_stage_max_lengths.2.1 c5Oracle sentC5 [(keyC5, [argC5])] 0 7
      [(keyC5, [(argC5, [])])] none
      [⟨[sentC5], [keyC5], 128, 0⟩, ⟨[sentC5], [['t', '1', '的', 'a']], 7, 0⟩] rfl,
    c10_stage_max_lengths.2.2 c5Oracle sentC5 [(keyC5, [argC5])] 0 7
      [(trigC5, [(argC5, [])])] none
      [⟨[sentC5], [keyC5], 128, 0⟩, ⟨[sentC5], [['t', '1', '的', 'a']], 7, 0⟩] rfl⟩

end UIE
